import Mathlib

/-!
Verification of the go-canopy coverage pipeline.

Shallow embedding of the Go sources under `internal/coverage`,
`internal/github`, `internal/storage` and the webhook HMAC validator.
Go `int` is modelled as `Int`, Go strings as `String` (or `List Char` where
byte-level reasoning is needed), Go maps as association lists in insertion
order, and Go's `sort` package as `List.insertionSort` (Go only guarantees
some sorted permutation; any sorting algorithm is a faithful model for the
order-insensitive properties proved here).
-/

namespace Canopy

/-- `ProfileBlock` from internal/coverage/parser.go. -/
structure ProfileBlock where
  startLine : Int
  startCol  : Int
  endLine   : Int
  endCol    : Int
  numStmt   : Int
  count     : Int
  deriving DecidableEq, Repr

/-- `Profile` from internal/coverage/parser.go. -/
structure Profile where
  fileName : String
  mode     : String
  blocks   : List ProfileBlock
  deriving DecidableEq, Repr

/-- Go `map[string][]int` (added lines keyed by diff file) modelled as an
association list in insertion order. -/
abbrev AddedLines := List (String × List Int)

/-- `strings.HasSuffix(s, suff)` via the underlying character list. -/
def hasSuffix (s suff : String) : Bool :=
  suff.data.isSuffixOf s.data

/-- `findMatchingDiffFile` from internal/coverage/analysis.go: exact map lookup
first, then the first diff file (in map iteration order, modelled as list
order) that is a bare suffix of the profile name or a suffix preceded
by `/`. -/
def findMatchingDiffFile (profile : Profile) (addedLinesByFile : AddedLines) :
    Option (String × List Int) :=
  match addedLinesByFile.find? (fun e => e.1 == profile.fileName) with
  | some e => some e
  | none =>
      addedLinesByFile.find? (fun e =>
        hasSuffix profile.fileName e.1 || hasSuffix profile.fileName ("/" ++ e.1))

/-- `isLineInstrumented` from internal/coverage/analysis.go:
true when the line falls in any block, inclusive on both ends. -/
def isLineInstrumented (profile : Option Profile) (line : Int) : Bool :=
  match profile with
  | none => false
  | some p =>
      p.blocks.any (fun block =>
        decide (block.startLine ≤ line ∧ line ≤ block.endLine))

/-- `isLineCovered` from internal/coverage/analysis.go:
true when the line falls in any block with `Count > 0`. -/
def isLineCovered (profile : Option Profile) (line : Int) : Bool :=
  match profile with
  | none => false
  | some p =>
      p.blocks.any (fun block =>
        decide (block.startLine ≤ line ∧ line ≤ block.endLine ∧ 0 < block.count))

/-- `AnalysisResult` from internal/coverage/analysis.go. -/
structure AnalysisResult where
  uncoveredByFile : List (String × List Int)
  totalAdded : Int
  totalUncovered : Int
  deriving DecidableEq, Repr

/-- Go map assignment `m[k] = v` on the association-list model. -/
def setAssoc (m : List (String × List Int)) (k : String) (v : List Int) :
    List (String × List Int) :=
  if m.any (fun e => e.1 == k) then
    m.map (fun e => if e.1 == k then (k, v) else e)
  else
    m ++ [(k, v)]

/-- The inner per-file loop of `AnalyzeCoverage`: added lines that are
instrumented but not covered. -/
def uncoveredIn (profile : Profile) (addedLines : List Int) : List Int :=
  addedLines.filter (fun line =>
    isLineInstrumented (some profile) line && !(isLineCovered (some profile) line))

/-- `AnalyzeCoverage` from internal/coverage/analysis.go (the profile-driven
variant): for each profile, resolve the diff file, count added lines, and
record instrumented-but-uncovered lines when non-empty. -/
def AnalyzeCoverage (profiles : List Profile) (addedLinesByFile : AddedLines) :
    AnalysisResult :=
  profiles.foldl
    (fun result profile =>
      match findMatchingDiffFile profile addedLinesByFile with
      | none => result
      | some (diffFile, addedLines) =>
          let uncoveredLines := uncoveredIn profile addedLines
          { uncoveredByFile :=
              if uncoveredLines = [] then result.uncoveredByFile
              else setAssoc result.uncoveredByFile diffFile uncoveredLines
            totalAdded := result.totalAdded + addedLines.length
            totalUncovered := result.totalUncovered + uncoveredLines.length })
    ⟨[], 0, 0⟩

/-! Embedding of internal/coverage/merger.go. -/

/-- `blockKey` from merger.go: the five position fields plus the statement
count; the execution count is deliberately excluded. -/
structure blockKey where
  startLine : Int
  startCol  : Int
  endLine   : Int
  endCol    : Int
  numStmt   : Int
  deriving DecidableEq, Repr

/-- `makeBlockKey` from merger.go. -/
def makeBlockKey (block : ProfileBlock) : blockKey :=
  ⟨block.startLine, block.startCol, block.endLine, block.endCol, block.numStmt⟩

/-- `mergeCount` from merger.go: `set` takes the larger count, `count`,
`atomic` and any unknown mode sum. -/
def mergeCount (mode : String) (a b : Int) : Int :=
  if mode = "set" then (if a > b then a else b)
  else if mode = "count" then a + b
  else if mode = "atomic" then a + b
  else a + b

/-- The non-strict order induced by the `sort.Slice` less-function used on
blocks: by `StartLine`, then `StartCol`. -/
def blockLe (a b : ProfileBlock) : Prop :=
  a.startLine < b.startLine ∨ (a.startLine = b.startLine ∧ a.startCol ≤ b.startCol)

instance : DecidableRel blockLe := fun a b => by
  unfold blockLe
  infer_instance

instance : IsTotal ProfileBlock blockLe :=
  ⟨by
    intro a b
    unfold blockLe
    omega⟩

instance : IsTrans ProfileBlock blockLe :=
  ⟨by
    intro a b c hab hbc
    unfold blockLe at *
    omega⟩

/-- The in-place `sort.Slice` on blocks, modelled as insertion sort (Go only
guarantees some permutation sorted by the less-function). -/
def sortBlocks (blocks : List ProfileBlock) : List ProfileBlock :=
  List.insertionSort blockLe blocks

/-- One step of the block-merging loop in `mergeFileProfiles`: the Go map
`blockMap` is modelled as an association list in insertion order; an existing
entry gets its count merged in place, a fresh key is appended. -/
def updateBlockMap (mode : String) (block : ProfileBlock) :
    List (blockKey × ProfileBlock) → List (blockKey × ProfileBlock)
  | [] => [(makeBlockKey block, block)]
  | (k, e) :: rest =>
      if k = makeBlockKey block then
        (k, { e with count := mergeCount mode e.count block.count }) :: rest
      else
        (k, e) :: updateBlockMap mode block rest

/-- The block-merging loop of `mergeFileProfiles` over all collected blocks. -/
def buildBlockMap (mode : String) (blocks : List ProfileBlock) :
    List (blockKey × ProfileBlock) :=
  blocks.foldl (fun m block => updateBlockMap mode block m) []

/-- `mergeFileProfiles` from merger.go: concatenates the blocks of all
profiles for one file; with a single profile the blocks are returned
directly, otherwise identical blocks are merged and the result is sorted
by position. -/
def mergeFileProfiles (fileName mode : String) (profiles : List Profile) : Profile :=
  let allBlocks := (profiles.map Profile.blocks).flatten
  if profiles.length = 1 then
    { fileName := fileName, mode := mode, blocks := allBlocks }
  else
    { fileName := fileName, mode := mode,
      blocks := sortBlocks ((buildBlockMap mode allBlocks).map (fun e => e.2)) }

/-- The grouping loop of `MergeProfiles`: `fileMap[p.FileName] = append(...)`
on the insertion-ordered association-list model of a Go map. -/
def addToFileMap (m : List (String × List Profile)) (p : Profile) :
    List (String × List Profile) :=
  if m.any (fun e => e.1 == p.fileName) then
    m.map (fun e => if e.1 == p.fileName then (e.1, e.2 ++ [p]) else e)
  else
    m ++ [(p.fileName, [p])]

/-- `fileMap` construction in `MergeProfiles`. -/
def groupByFile (profiles : List Profile) : List (String × List Profile) :=
  profiles.foldl addToFileMap []

/-- Go's bytewise `<` on strings, on the character-list model
(identical on the ASCII file names the pipeline handles). -/
def charListLt : List Char → List Char → Bool
  | [], [] => false
  | [], _ :: _ => true
  | _ :: _, [] => false
  | a :: as, b :: bs =>
      if a.toNat < b.toNat then true
      else if b.toNat < a.toNat then false
      else charListLt as bs

theorem charListLt_asymm : ∀ as bs, charListLt as bs = true → charListLt bs as = false
  | [], [] => by simp [charListLt]
  | [], _ :: _ => by simp [charListLt]
  | _ :: _, [] => by simp [charListLt]
  | a :: as, b :: bs => by
    simp only [charListLt]
    intro h
    split_ifs at h ⊢ <;> first | rfl | omega | exact charListLt_asymm as bs h

theorem charListLt_le_trans : ∀ as bs cs,
    charListLt bs as = false → charListLt cs bs = false → charListLt cs as = false
  | [], bs, cs => by
    cases cs <;> cases bs <;> simp [charListLt]
  | _ :: _, [], _ => by simp [charListLt]
  | _ :: _, _ :: _, [] => by simp [charListLt]
  | a :: as, b :: bs, c :: cs => by
    simp only [charListLt]
    intro h1 h2
    split_ifs at h1 h2 ⊢ <;>
      first | rfl | omega | exact charListLt_le_trans as bs cs h1 h2

/-- The non-strict order `a <= b` induced by Go string comparison,
as `!(b < a)`. -/
def goStringLe (a b : String) : Prop :=
  charListLt b.data a.data = false

instance : DecidableRel goStringLe := fun a b => by
  unfold goStringLe
  infer_instance

instance : IsTotal String goStringLe :=
  ⟨by
    intro a b
    by_cases h : charListLt b.data a.data = true
    · exact Or.inr (charListLt_asymm _ _ h)
    · exact Or.inl (by simpa [goStringLe] using h)⟩

instance : IsTrans String goStringLe :=
  ⟨fun _ _ _ h1 h2 => charListLt_le_trans _ _ _ h1 h2⟩

/-- The non-strict order induced by the `sort.Slice` less-function on the
result profiles: by `FileName`. -/
def profileNameLe (a b : Profile) : Prop :=
  goStringLe a.fileName b.fileName

instance : DecidableRel profileNameLe := fun a b => by
  unfold profileNameLe
  infer_instance

instance : IsTotal Profile profileNameLe :=
  ⟨fun a b => total_of goStringLe a.fileName b.fileName⟩

instance : IsTrans Profile profileNameLe :=
  ⟨fun _ _ _ h1 h2 => Trans.trans (r := goStringLe) h1 h2⟩

/-- The final `sort.Slice` by file name in `MergeProfiles`. -/
def sortProfilesByName (ps : List Profile) : List Profile :=
  List.insertionSort profileNameLe ps

/-- `copyProfile` from merger.go (deep copy; identity on the pure model). -/
def copyProfile (p : Profile) : Profile :=
  { fileName := p.fileName, mode := p.mode, blocks := p.blocks }

/-- `MergeProfiles` from merger.go: empty input errors; a single profile is
copied with its blocks sorted; otherwise modes must agree, profiles are
grouped by file, each group is merged, and the results are sorted by file
name. -/
def MergeProfiles : List Profile → Except String (List Profile)
  | [] => Except.error "no profiles to merge"
  | [p] => Except.ok [{ copyProfile p with blocks := sortBlocks p.blocks }]
  | p0 :: p1 :: rest =>
      let profiles := p0 :: p1 :: rest
      if profiles.all (fun p => p.mode == p0.mode) then
        Except.ok (sortProfilesByName
          ((groupByFile profiles).map (fun e => mergeFileProfiles e.1 p0.mode e.2)))
      else
        Except.error "mode mismatch"

theorem mem_keys_updateBlockMap_self (mode : String) (block : ProfileBlock) :
    ∀ m, makeBlockKey block ∈ (updateBlockMap mode block m).map Prod.fst
  | [] => by simp [updateBlockMap]
  | (k, e) :: rest => by
    by_cases h : k = makeBlockKey block
    · simp [updateBlockMap, h]
    · simpa [updateBlockMap, h] using
        Or.inr (mem_keys_updateBlockMap_self mode block rest)

theorem mem_keys_updateBlockMap_of_mem (mode : String) (block : ProfileBlock) :
    ∀ m k, k ∈ m.map Prod.fst → k ∈ (updateBlockMap mode block m).map Prod.fst
  | [], _, h => by simp at h
  | (k', e) :: rest, k, h => by
    rcases by simpa using h with hk | hk
    · by_cases he : k' = makeBlockKey block <;> simp [updateBlockMap, he, hk]
    · by_cases he : k' = makeBlockKey block
      · simp [updateBlockMap, he]
        right
        simpa using hk
      · simpa [updateBlockMap, he] using
          Or.inr (mem_keys_updateBlockMap_of_mem mode block rest k (by simpa using hk))

theorem updateBlockMap_key_inv (mode : String) (block : ProfileBlock) :
    ∀ m, (∀ e ∈ m, makeBlockKey e.2 = e.1) →
      ∀ e ∈ updateBlockMap mode block m, makeBlockKey e.2 = e.1
  | [], _, e, he => by
    simp [updateBlockMap] at he
    simp [he]
  | (k', v) :: rest, hm, e, he => by
    by_cases hk : k' = makeBlockKey block
    · simp only [updateBlockMap, if_pos hk] at he
      rcases by simpa using he with h | h
      · subst h
        exact hm (k', v) (by simp)
      · exact hm e (by simp [h])
    · simp only [updateBlockMap, if_neg hk] at he
      rcases by simpa using he with h | h
      · subst h
        exact hm (k', v) (by simp)
      · exact updateBlockMap_key_inv mode block rest
          (fun e' he' => hm e' (by simp [he'])) e h

theorem foldl_update_keys_mono (mode : String) :
    ∀ (blocks : List ProfileBlock) (m) (k), k ∈ m.map Prod.fst →
      k ∈ (blocks.foldl (fun m b => updateBlockMap mode b m) m).map Prod.fst
  | [], _, _, h => h
  | b :: bs, m, k, h =>
    foldl_update_keys_mono mode bs _ k (mem_keys_updateBlockMap_of_mem mode b m k h)

theorem foldl_update_keys_mem (mode : String) :
    ∀ (blocks : List ProfileBlock) (m) (b), b ∈ blocks →
      makeBlockKey b ∈ (blocks.foldl (fun m b => updateBlockMap mode b m) m).map Prod.fst
  | [], _, _, h => by simp at h
  | b' :: bs, m, b, h => by
    rcases List.mem_cons.mp h with rfl | h
    · exact foldl_update_keys_mono mode bs _ _ (mem_keys_updateBlockMap_self mode b m)
    · exact foldl_update_keys_mem mode bs _ b h

theorem foldl_update_key_inv (mode : String) :
    ∀ (blocks : List ProfileBlock) (m), (∀ e ∈ m, makeBlockKey e.2 = e.1) →
      ∀ e ∈ blocks.foldl (fun m b => updateBlockMap mode b m) m,
        makeBlockKey e.2 = e.1
  | [], _, hm => hm
  | b :: bs, m, hm =>
    foldl_update_key_inv mode bs _ (updateBlockMap_key_inv mode b m hm)

/-- C3: `set` mode combines counts by max, every other mode by sum; two
blocks sharing the identity key collapse to one block with the combined
count, while every identity key occurring in the input survives into the
merged block list. -/
theorem mergeCount_identity_spec :
    (∀ a b : Int, mergeCount "set" a b = max a b)
    ∧ (∀ (mode : String) (a b : Int), mode ≠ "set" → mergeCount mode a b = a + b)
    ∧ (∀ (fn mode : String) (a b : ProfileBlock), makeBlockKey a = makeBlockKey b →
        (mergeFileProfiles fn mode
            [{ fileName := fn, mode := mode, blocks := [a] },
             { fileName := fn, mode := mode, blocks := [b] }]).blocks
          = [{ a with count := mergeCount mode a.count b.count }])
    ∧ (∀ (fn mode : String) (ps : List Profile) (p : Profile) (b : ProfileBlock),
        2 ≤ ps.length → p ∈ ps → b ∈ p.blocks →
        ∃ b' ∈ (mergeFileProfiles fn mode ps).blocks,
          makeBlockKey b' = makeBlockKey b) := by
  refine ⟨?_, ?_, ?_, ?_⟩
  · intro a b
    simp only [mergeCount, if_pos rfl]
    split_ifs <;> omega
  · intro mode a b h
    simp only [mergeCount, if_neg h]
    split_ifs <;> rfl
  · intro fn mode a b h
    simp [mergeFileProfiles, buildBlockMap, updateBlockMap, h, sortBlocks,
      List.insertionSort, List.orderedInsert]
  · intro fn mode ps p b hlen hp hb
    have hne : ¬ ps.length = 1 := by omega
    have hmem : b ∈ (ps.map Profile.blocks).flatten :=
      List.mem_flatten.mpr ⟨p.blocks, List.mem_map_of_mem _ hp, hb⟩
    have hkey := foldl_update_keys_mem mode _ [] b hmem
    rw [List.mem_map] at hkey
    obtain ⟨e, he, hek⟩ := hkey
    have hinv := foldl_update_key_inv mode ((ps.map Profile.blocks).flatten) []
      (by simp) e he
    refine ⟨e.2, ?_, hinv.trans hek⟩
    simp only [mergeFileProfiles, if_neg hne, sortBlocks, List.mem_insertionSort]
    exact List.mem_map_of_mem _ he

/-- C3 witness: two identical-identity `set`-mode blocks with counts 1 and 3
merge to a single block with count `max 1 3`; all other parts instantiated
concretely. -/
theorem mergeCount_identity_spec_witness :
    mergeCount "set" 1 3 = max 1 3
    ∧ mergeCount "count" 1 3 = 1 + 3
    ∧ (mergeFileProfiles "f.go" "set"
        [{ fileName := "f.go", mode := "set", blocks := [⟨1, 1, 2, 2, 1, 1⟩] },
         { fileName := "f.go", mode := "set", blocks := [⟨1, 1, 2, 2, 1, 3⟩] }]).blocks
      = [⟨1, 1, 2, 2, 1, mergeCount "set" 1 3⟩]
    ∧ ∃ b' ∈ (mergeFileProfiles "f.go" "set"
        [{ fileName := "f.go", mode := "set", blocks := [⟨1, 1, 2, 2, 1, 1⟩] },
         { fileName := "f.go", mode := "set", blocks := [⟨1, 1, 2, 2, 1, 3⟩] }]).blocks,
        makeBlockKey b' = makeBlockKey ⟨1, 1, 2, 2, 1, 1⟩ :=
  ⟨mergeCount_identity_spec.1 1 3,
   mergeCount_identity_spec.2.1 "count" 1 3 (by decide),
   mergeCount_identity_spec.2.2.1 "f.go" "set" ⟨1, 1, 2, 2, 1, 1⟩ ⟨1, 1, 2, 2, 1, 3⟩ rfl,
   mergeCount_identity_spec.2.2.2 "f.go" "set"
     [{ fileName := "f.go", mode := "set", blocks := [⟨1, 1, 2, 2, 1, 1⟩] },
      { fileName := "f.go", mode := "set", blocks := [⟨1, 1, 2, 2, 1, 3⟩] }]
     { fileName := "f.go", mode := "set", blocks := [⟨1, 1, 2, 2, 1, 1⟩] }
     ⟨1, 1, 2, 2, 1, 1⟩ (by decide) (by decide) (by decide)⟩

/-- C2 counterexample: with two input profiles for different files, each
file's group holds exactly one profile and `mergeFileProfiles` returns its
blocks without sorting, so the merged output keeps an unsorted block list. -/
theorem mergeProfiles_single_file_group_unsorted :
    MergeProfiles
      [ { fileName := "a.go", mode := "set",
          blocks := [⟨2, 1, 2, 5, 1, 1⟩, ⟨1, 1, 1, 5, 1, 1⟩] },
        { fileName := "b.go", mode := "set", blocks := [] } ]
      = Except.ok
        [ { fileName := "a.go", mode := "set",
            blocks := [⟨2, 1, 2, 5, 1, 1⟩, ⟨1, 1, 1, 5, 1, 1⟩] },
          { fileName := "b.go", mode := "set", blocks := [] } ]
    ∧ ¬ List.Sorted blockLe
        ([⟨2, 1, 2, 5, 1, 1⟩, ⟨1, 1, 1, 5, 1, 1⟩] : List ProfileBlock) :=
  ⟨by rfl, by decide⟩

theorem any_map_entry_fst (m : List (String × List Profile)) (p : Profile)
    (k : String) :
    (m.map (fun e => if e.1 == p.fileName then (e.1, e.2 ++ [p]) else e)).any
        (fun e => e.1 == k)
      = m.any (fun e => e.1 == k) := by
  induction m with
  | nil => rfl
  | cons e rest ih =>
      simp only [List.map_cons, List.any_cons, ih]
      by_cases h : (e.1 == p.fileName) = true
      · rw [if_pos h]
      · rw [if_neg h]

theorem foldl_addToFileMap_spec :
    ∀ (ps : List Profile) (acc : List (String × List Profile))
      (processed : List Profile),
      (∀ e ∈ acc, e.2 = processed.filter (fun p => p.fileName == e.1)) →
      (∀ p' ∈ processed, acc.any (fun e => e.1 == p'.fileName) = true) →
      ∀ e ∈ ps.foldl addToFileMap acc,
        e.2 = (processed ++ ps).filter (fun p => p.fileName == e.1)
  | [], acc, processed, h1, _, e, he => by
    simpa using h1 e he
  | p :: ps', acc, processed, h1, h2, e, he => by
    rw [List.foldl_cons] at he
    have key : ∀ e' ∈ addToFileMap acc p,
        e'.2 = (processed ++ [p]).filter (fun q => q.fileName == e'.1) := by
      intro e' he'
      by_cases hany : acc.any (fun en => en.1 == p.fileName) = true
      · simp only [addToFileMap, if_pos hany] at he'
        rw [List.mem_map] at he'
        obtain ⟨en, hen, hmap⟩ := he'
        by_cases hmatch : (en.1 == p.fileName) = true
        · rw [if_pos hmatch] at hmap
          have hfn : en.1 = p.fileName := by simpa using hmatch
          subst hmap
          simp only [List.filter_append]
          rw [← h1 en hen]
          simp [hfn]
        · rw [if_neg hmatch] at hmap
          subst hmap
          have hfn : ¬ en.1 = p.fileName := by simpa using hmatch
          simp only [List.filter_append]
          rw [← h1 en hen]
          have : (p.fileName == en.1) = false := by
            simp
            exact fun hc => hfn hc.symm
          simp [this]
      · simp only [addToFileMap, if_neg hany] at he'
        rcases List.mem_append.mp he' with hin | hin
        · have hfn : (p.fileName == e'.1) = false := by
            simp only [List.any_eq_true, not_exists, not_and, Bool.not_eq_true] at hany
            have := hany e' hin
            simp at this ⊢
            exact fun hc => this hc.symm
          simp only [List.filter_append]
          rw [← h1 e' hin]
          simp [hfn]
        · have he'' : e' = (p.fileName, [p]) := by simpa using hin
          subst he''
          simp only [List.filter_append]
          have hnone : processed.filter (fun q => q.fileName == p.fileName) = [] := by
            rw [List.filter_eq_nil_iff]
            intro p' hp' hc
            have := h2 p' hp'
            simp only [List.any_eq_true] at this hany
            obtain ⟨en, hen, heq⟩ := this
            exact hany ⟨en, hen, by
              have h3 : p'.fileName = p.fileName := by simpa using hc
              simpa [← h3] using heq⟩
          simp [hnone]
    have keys : ∀ p' ∈ processed ++ [p],
        (addToFileMap acc p).any (fun en => en.1 == p'.fileName) = true := by
      intro p' hp'
      have base : ∀ k, acc.any (fun en => en.1 == k) = true →
          (addToFileMap acc p).any (fun en => en.1 == k) = true := by
        intro k hk
        by_cases hany : acc.any (fun en => en.1 == p.fileName) = true
        · simpa only [addToFileMap, if_pos hany, any_map_entry_fst] using hk
        · simp [addToFileMap, if_neg hany, List.any_append, hk]
      have pk : (addToFileMap acc p).any (fun en => en.1 == p.fileName) = true := by
        by_cases hany : acc.any (fun en => en.1 == p.fileName) = true
        · exact base _ hany
        · simp [addToFileMap, if_neg hany, List.any_append]
      rcases List.mem_append.mp hp' with hin | hin
      · exact base _ (h2 p' hin)
      · have hp'' : p' = p := by simpa using hin
        subst hp''
        exact pk
    have := foldl_addToFileMap_spec ps' (addToFileMap acc p) (processed ++ [p])
      key keys e he
    simpa [List.append_assoc] using this

theorem groupByFile_spec (ps : List Profile) :
    ∀ e ∈ groupByFile ps, e.2 = ps.filter (fun p => p.fileName == e.1) := by
  intro e he
  simpa using foldl_addToFileMap_spec ps [] [] (by simp) (by simp) e he

theorem mergeFileProfiles_fileName (fn mode : String) (ps : List Profile) :
    (mergeFileProfiles fn mode ps).fileName = fn := by
  simp only [mergeFileProfiles]
  split <;> rfl

/-- C2 (amended): merged output blocks are sorted by `(startLine, startCol)`
when the whole input is a single profile or when the file occurs in at least
two input profiles; a file present in exactly one of several inputs keeps
that profile's block order unchanged. -/
theorem mergeProfiles_sorting_amended :
    (∀ (p q : Profile), MergeProfiles [p] = Except.ok [q] → q.blocks.Sorted blockLe)
    ∧ (∀ (fn mode : String) (ps : List Profile), 2 ≤ ps.length →
        (mergeFileProfiles fn mode ps).blocks.Sorted blockLe)
    ∧ (∀ (profiles res : List Profile) (q : Profile),
        MergeProfiles profiles = Except.ok res → q ∈ res →
        2 ≤ (profiles.filter (fun p => p.fileName == q.fileName)).length →
        q.blocks.Sorted blockLe)
    ∧ (∀ (profiles res : List Profile) (q p' : Profile),
        MergeProfiles profiles = Except.ok res → q ∈ res →
        2 ≤ profiles.length →
        profiles.filter (fun p => p.fileName == q.fileName) = [p'] →
        q.blocks = p'.blocks) := by
  have hsorted2 : ∀ (fn mode : String) (ps : List Profile), 2 ≤ ps.length →
      (mergeFileProfiles fn mode ps).blocks.Sorted blockLe := by
    intro fn mode ps hlen
    have hne : ¬ ps.length = 1 := by omega
    simp only [mergeFileProfiles, if_neg hne]
    exact List.sorted_insertionSort blockLe _
  have hdecomp : ∀ (p0 p1 : Profile) (rest res : List Profile) (q : Profile),
      MergeProfiles (p0 :: p1 :: rest) = Except.ok res → q ∈ res →
      ∃ e ∈ groupByFile (p0 :: p1 :: rest),
        q = mergeFileProfiles e.1 p0.mode e.2 := by
    intro p0 p1 rest res q hmerge hq
    simp only [MergeProfiles] at hmerge
    split at hmerge
    · rw [Except.ok.injEq] at hmerge
      subst hmerge
      have hq' : q ∈ (groupByFile (p0 :: p1 :: rest)).map
          (fun e => mergeFileProfiles e.1 p0.mode e.2) := by
        simpa [sortProfilesByName] using hq
      rw [List.mem_map] at hq'
      obtain ⟨e, he, hqe⟩ := hq'
      exact ⟨e, he, hqe.symm⟩
    · exact absurd hmerge (by simp)
  refine ⟨?_, hsorted2, ?_, ?_⟩
  · intro p q h
    simp only [MergeProfiles, Except.ok.injEq, List.cons.injEq, and_true] at h
    rw [← h]
    exact List.sorted_insertionSort blockLe _
  · intro profiles res q hmerge hq hcount
    match profiles with
    | [] => simp [MergeProfiles] at hmerge
    | [p] =>
      have := List.length_filter_le (fun p => p.fileName == q.fileName) [p]
      simp at this
      omega
    | p0 :: p1 :: rest =>
      obtain ⟨e, he, hqe⟩ := hdecomp p0 p1 rest res q hmerge hq
      have hfn : q.fileName = e.1 := by rw [hqe]; exact mergeFileProfiles_fileName ..
      have hgrp := groupByFile_spec (p0 :: p1 :: rest) e he
      rw [hfn, ← hgrp] at hcount
      rw [hqe]
      exact hsorted2 e.1 p0.mode e.2 hcount
  · intro profiles res q p' hmerge hq hlen hfilter
    match profiles with
    | [] => simp at hlen
    | [p] => simp at hlen
    | p0 :: p1 :: rest =>
      obtain ⟨e, he, hqe⟩ := hdecomp p0 p1 rest res q hmerge hq
      have hfn : q.fileName = e.1 := by rw [hqe]; exact mergeFileProfiles_fileName ..
      have hgrp := groupByFile_spec (p0 :: p1 :: rest) e he
      rw [hfn, ← hgrp] at hfilter
      rw [hqe]
      simp [mergeFileProfiles, hfilter]

/-- C2 witness: a file present in two of the input profiles gets its merged
block list sorted by position. -/
theorem mergeProfiles_sorting_amended_witness :
    ({ fileName := "a.go", mode := "set",
       blocks := [⟨1, 1, 1, 5, 1, 1⟩, ⟨2, 1, 2, 5, 1, 0⟩] } : Profile).blocks.Sorted
      blockLe :=
  mergeProfiles_sorting_amended.2.2.1
    [{ fileName := "a.go", mode := "set", blocks := [⟨2, 1, 2, 5, 1, 0⟩] },
     { fileName := "a.go", mode := "set", blocks := [⟨1, 1, 1, 5, 1, 1⟩] }]
    [{ fileName := "a.go", mode := "set",
       blocks := [⟨1, 1, 1, 5, 1, 1⟩, ⟨2, 1, 2, 5, 1, 0⟩] }]
    { fileName := "a.go", mode := "set",
      blocks := [⟨1, 1, 1, 5, 1, 1⟩, ⟨2, 1, 2, 5, 1, 0⟩] }
    (by rfl) (by decide) (by decide)

theorem updateBlockMap_not_mem (mode : String) (block : ProfileBlock) :
    ∀ m, makeBlockKey block ∉ m.map Prod.fst →
      updateBlockMap mode block m = m ++ [(makeBlockKey block, block)]
  | [], _ => rfl
  | (k, e) :: rest, h => by
    have hk : ¬ k = makeBlockKey block := by
      intro hc
      exact h (by simp [hc])
    simp only [updateBlockMap, if_neg hk, List.cons_append, List.cons.injEq, true_and]
    exact updateBlockMap_not_mem mode block rest (fun hc => h (by simp [hc]))

theorem foldl_update_fresh (mode : String) :
    ∀ (blocks : List ProfileBlock) (m : List (blockKey × ProfileBlock)),
      (blocks.map makeBlockKey).Nodup →
      (∀ b ∈ blocks, makeBlockKey b ∉ m.map Prod.fst) →
      blocks.foldl (fun m b => updateBlockMap mode b m) m
        = m ++ blocks.map (fun b => (makeBlockKey b, b))
  | [], m, _, _ => by simp
  | b :: bs, m, hnodup, hfresh => by
    rw [List.map_cons, List.nodup_cons] at hnodup
    rw [List.foldl_cons, updateBlockMap_not_mem mode b m (hfresh b (by simp))]
    rw [foldl_update_fresh mode bs (m ++ [(makeBlockKey b, b)]) hnodup.2 ?_]
    · simp
    · intro b' hb'
      simp only [List.map_append, List.mem_append, List.map_cons]
      rintro (h | h)
      · exact hfresh b' (by simp [hb']) h
      · have : makeBlockKey b' = makeBlockKey b := by simpa using h
        exact hnodup.1 (this ▸ List.mem_map_of_mem makeBlockKey hb')

theorem updateBlockMap_found (mode : String) (block : ProfileBlock) :
    ∀ (m1 : List (blockKey × ProfileBlock)) (e : ProfileBlock)
      (rest : List (blockKey × ProfileBlock)),
      makeBlockKey block ∉ m1.map Prod.fst →
      updateBlockMap mode block (m1 ++ (makeBlockKey block, e) :: rest)
        = m1 ++ (makeBlockKey block,
            { e with count := mergeCount mode e.count block.count }) :: rest
  | [], e, rest, _ => by
    simp [updateBlockMap]
  | (k, v) :: m1', e, rest, h => by
    have hk : ¬ k = makeBlockKey block := by
      intro hc
      exact h (by simp [hc])
    simp only [List.cons_append, updateBlockMap, if_neg hk, List.cons.injEq, true_and]
    exact updateBlockMap_found mode block m1' e rest (fun hc => h (by simp [hc]))

theorem foldl_update_merge_self (mode : String) :
    ∀ (blocks : List ProfileBlock) (m1 : List (blockKey × ProfileBlock)),
      (blocks.map makeBlockKey).Nodup →
      (∀ b ∈ blocks, makeBlockKey b ∉ m1.map Prod.fst) →
      blocks.foldl (fun m b => updateBlockMap mode b m)
          (m1 ++ blocks.map (fun b => (makeBlockKey b, b)))
        = m1 ++ blocks.map (fun b =>
            (makeBlockKey b, { b with count := mergeCount mode b.count b.count }))
  | [], m1, _, _ => by simp
  | b :: bs, m1, hnodup, hfresh => by
    rw [List.map_cons, List.nodup_cons] at hnodup
    rw [List.map_cons, List.foldl_cons,
      updateBlockMap_found mode b m1 b (bs.map (fun b => (makeBlockKey b, b)))
        (hfresh b (by simp))]
    have step :
        m1 ++ (makeBlockKey b, { b with count := mergeCount mode b.count b.count })
            :: bs.map (fun b => (makeBlockKey b, b))
          = (m1 ++ [(makeBlockKey b,
              { b with count := mergeCount mode b.count b.count })])
            ++ bs.map (fun b => (makeBlockKey b, b)) := by
      simp
    have hfresh' : ∀ b' ∈ bs, makeBlockKey b' ∉
        (m1 ++ [(makeBlockKey b,
          { b with count := mergeCount mode b.count b.count })]).map Prod.fst := by
      intro b' hb'
      simp only [List.map_append, List.mem_append, List.map_cons]
      rintro (h | h)
      · exact hfresh b' (by simp [hb']) h
      · have : makeBlockKey b' = makeBlockKey b := by simpa using h
        exact hnodup.1 (this ▸ List.mem_map_of_mem makeBlockKey hb')
    have IH := foldl_update_merge_self mode bs
      (m1 ++ [(makeBlockKey b, { b with count := mergeCount mode b.count b.count })])
      hnodup.2 hfresh'
    rw [step, IH]
    simp

theorem buildBlockMap_doubled (mode : String) (blocks : List ProfileBlock)
    (h : (blocks.map makeBlockKey).Nodup) :
    buildBlockMap mode (blocks ++ blocks)
      = blocks.map (fun b =>
          (makeBlockKey b, { b with count := mergeCount mode b.count b.count })) := by
  unfold buildBlockMap
  rw [List.foldl_append]
  rw [foldl_update_fresh mode blocks [] h (by simp)]
  simpa using foldl_update_merge_self mode blocks [] h (by simp)

theorem mergeCount_set_self (c : Int) : mergeCount "set" c c = c := by
  simp [mergeCount]

theorem mergeFileProfiles_mode (fn mode : String) (ps : List Profile) :
    (mergeFileProfiles fn mode ps).mode = mode := by
  simp only [mergeFileProfiles]
  split <;> rfl

/-- C5 counterexample: a `set`-mode profile holding two blocks with the same
identity key collapses to a single block under `merge([P,P])`, so the result
is not equivalent to `P` as a multiset of blocks. -/
theorem mergeProfiles_set_idempotence_fails :
    MergeProfiles
      [{ fileName := "f.go", mode := "set",
         blocks := [⟨1, 1, 2, 2, 1, 1⟩, ⟨1, 1, 2, 2, 1, 1⟩] },
       { fileName := "f.go", mode := "set",
         blocks := [⟨1, 1, 2, 2, 1, 1⟩, ⟨1, 1, 2, 2, 1, 1⟩] }]
      = Except.ok
        [{ fileName := "f.go", mode := "set",
           blocks := [⟨1, 1, 2, 2, 1, 1⟩] }]
    ∧ ¬ (([⟨1, 1, 2, 2, 1, 1⟩] : List ProfileBlock) : Multiset ProfileBlock)
        = (([⟨1, 1, 2, 2, 1, 1⟩, ⟨1, 1, 2, 2, 1, 1⟩] : List ProfileBlock) :
            Multiset ProfileBlock) :=
  ⟨by rfl, by decide⟩

/-- C5 (amended): for a `set`-mode profile whose blocks carry pairwise
distinct identity keys, `merge([P,P])` returns a single profile with the
same file name, the same mode, and the same multiset of blocks. -/
theorem mergeProfiles_set_idempotent_amended (P : Profile) (hmode : P.mode = "set")
    (hnodup : (P.blocks.map makeBlockKey).Nodup) :
    ∃ Q, MergeProfiles [P, P] = Except.ok [Q] ∧ Q.fileName = P.fileName ∧
      Q.mode = P.mode ∧
      (Q.blocks : Multiset ProfileBlock) = (P.blocks : Multiset ProfileBlock) := by
  refine ⟨mergeFileProfiles P.fileName P.mode [P, P], ?_, ?_, ?_, ?_⟩
  · simp only [MergeProfiles]
    rw [if_pos ?_]
    · have hgrp : groupByFile [P, P] = [(P.fileName, [P, P])] := by
        simp [groupByFile, addToFileMap]
      rw [hgrp]
      simp [sortProfilesByName, List.insertionSort, List.orderedInsert]
    · simp
  · exact mergeFileProfiles_fileName ..
  · exact mergeFileProfiles_mode ..
  · have hne : ¬ ([P, P].length = 1) := by simp
    simp only [mergeFileProfiles, if_neg hne]
    have hall : ([P, P].map Profile.blocks).flatten = P.blocks ++ P.blocks := by simp
    rw [hall, hmode, buildBlockMap_doubled "set" P.blocks hnodup]
    have hmap : ((P.blocks.map (fun b => (makeBlockKey b,
        { b with count := mergeCount "set" b.count b.count }))).map (fun e => e.2))
          = P.blocks := by
      rw [List.map_map]
      have heach : ∀ b ∈ P.blocks, ((fun e => e.2) ∘ (fun b => (makeBlockKey b,
          { b with count := mergeCount "set" b.count b.count }))) b = id b := by
        intro b _
        simp [Function.comp, mergeCount_set_self]
      rw [List.map_congr_left heach, List.map_id]
    rw [hmap]
    exact Multiset.coe_eq_coe.mpr (List.perm_insertionSort blockLe P.blocks)

/-- C5 witness: the amended idempotence applied to a concrete two-block
`set`-mode profile with distinct identity keys. -/
theorem mergeProfiles_set_idempotent_amended_witness :
    ∃ Q, MergeProfiles
        [{ fileName := "f.go", mode := "set",
           blocks := [⟨1, 1, 2, 2, 1, 1⟩, ⟨3, 1, 4, 2, 1, 0⟩] },
         { fileName := "f.go", mode := "set",
           blocks := [⟨1, 1, 2, 2, 1, 1⟩, ⟨3, 1, 4, 2, 1, 0⟩] }]
        = Except.ok [Q]
      ∧ Q.fileName = "f.go" ∧ Q.mode = "set"
      ∧ (Q.blocks : Multiset ProfileBlock)
          = (([⟨1, 1, 2, 2, 1, 1⟩, ⟨3, 1, 4, 2, 1, 0⟩] : List ProfileBlock) :
              Multiset ProfileBlock) :=
  mergeProfiles_set_idempotent_amended
    { fileName := "f.go", mode := "set",
      blocks := [⟨1, 1, 2, 2, 1, 1⟩, ⟨3, 1, 4, 2, 1, 0⟩] }
    rfl (by decide)

/-- C1: the spec and the code's own comment require a leading `/` at the
suffix-match boundary so that profile `myhandler.go` never resolves to diff
file `handler.go`; the code checks the bare suffix first, so the boundary
guard is dead code and the partial-basename match goes through. -/
theorem findMatchingDiffFile_basename_boundary_bug :
    findMatchingDiffFile { fileName := "myhandler.go", mode := "set", blocks := [] }
      [("handler.go", [1])] = some ("handler.go", [1]) := by
  decide

/-! Embedding of internal/github/annotations.go and `GenerateAnnotations`
from internal/coverage/analysis.go. -/

/-- `LineRange` from annotations.go. -/
structure LineRange where
  start : Int
  «end» : Int
  deriving DecidableEq, Repr

/-- `Annotation` from annotations.go. -/
structure Annotation where
  path : String
  startLine : Int
  endLine : Int
  level : String
  title : String
  message : String
  deriving DecidableEq, Repr

/-- The loop of `GroupIntoRanges`, carrying the current open range and the
ranges emitted so far. -/
def groupLinesLoop (rangeStart rangeEnd : Int) :
    List Int → List LineRange → List LineRange
  | [], acc => acc ++ [⟨rangeStart, rangeEnd⟩]
  | l :: ls, acc =>
      if l = rangeEnd + 1 then groupLinesLoop rangeStart l ls acc
      else groupLinesLoop l l ls (acc ++ [⟨rangeStart, rangeEnd⟩])

/-- `GroupIntoRanges` from annotations.go: collapses consecutive line numbers
of an ascending list into closed ranges. -/
def GroupIntoRanges : List Int → List LineRange
  | [] => []
  | l :: ls => groupLinesLoop l l ls []

/-- `sort.Ints`, modelled as insertion sort. -/
def sortInts (lines : List Int) : List Int :=
  List.insertionSort (fun a b => a ≤ b) lines

/-- `SortAndGroupLines` from annotations.go: sorts a copy of the input and
groups it into ranges. -/
def SortAndGroupLines (lines : List Int) : List LineRange :=
  if lines.length = 0 then [] else GroupIntoRanges (sortInts lines)

/-- State-passing translation of `SortAndGroupLines` for the frame claim:
a Go slice argument is a mutable view, so the callee is modelled as
returning both its result and the final contents of the caller's slice.
The source copies `lines` into a fresh slice and sorts only the copy, so
the caller's slice comes back unchanged. -/
def SortAndGroupLinesFrame (lines : List Int) : List LineRange × List Int :=
  if lines.length = 0 then ([], lines)
  else
    let sorted := lines
    let sorted := sortInts sorted
    (GroupIntoRanges sorted, lines)

/-- `AnalysisResult.GetSortedFiles` from analysis.go: the map keys sorted
with `sort.Strings`. -/
def GetSortedFiles (r : AnalysisResult) : List String :=
  List.insertionSort goStringLe (r.uncoveredByFile.map Prod.fst)

/-- Go map indexing `result.UncoveredByFile[file]` (zero value for a missing
key). -/
def lookupLines (m : List (String × List Int)) (file : String) : List Int :=
  match m.find? (fun e => e.1 == file) with
  | some e => e.2
  | none => []

/-- The annotation built for one range in `GenerateAnnotations`. -/
def annotationForRange (file : String) (r : LineRange) : Annotation :=
  if r.start = r.«end» then
    { path := file, startLine := r.start, endLine := r.«end», level := "notice",
      title := "Uncovered line",
      message := "Line " ++ toString r.start ++ " is not covered by tests" }
  else
    { path := file, startLine := r.start, endLine := r.«end», level := "notice",
      title := "Uncovered lines",
      message := "Lines " ++ toString r.start ++ "-" ++ toString r.«end» ++
        " are not covered by tests" }

/-- `GenerateAnnotations` from analysis.go: files in sorted order, one
annotation per grouped range. -/
def GenerateAnnotations (result : AnalysisResult) : List Annotation :=
  if result.uncoveredByFile.length = 0 then []
  else
    ((GetSortedFiles result).map (fun file =>
      (SortAndGroupLines (lookupLines result.uncoveredByFile file)).map
        (annotationForRange file))).flatten

/-- C10: `SortAndGroupLines` sorts a private copy, so the state-passing
translation returns the caller's slice unchanged while computing the same
ranges; consequently `GenerateAnnotations`, which applies it to each stored
line list, leaves every `UncoveredByFile` entry as it was. -/
theorem sortAndGroupLines_frame :
    (∀ lines : List Int,
      (SortAndGroupLinesFrame lines).2 = lines
      ∧ (SortAndGroupLinesFrame lines).1 = SortAndGroupLines lines)
    ∧ ∀ result : AnalysisResult,
        result.uncoveredByFile.map (fun e => (e.1, (SortAndGroupLinesFrame e.2).2))
          = result.uncoveredByFile := by
  constructor
  · intro lines
    constructor
    · simp only [SortAndGroupLinesFrame]
      split <;> rfl
    · simp only [SortAndGroupLinesFrame, SortAndGroupLines]
      split <;> rfl
  · intro result
    have h : ∀ e ∈ result.uncoveredByFile,
        (e.1, (SortAndGroupLinesFrame e.2).2) = id e := by
      intro e _
      simp only [SortAndGroupLinesFrame]
      split <;> rfl
    rw [List.map_congr_left h, List.map_id]

/-- C4: line classification is inclusive at both block boundaries, and a line
inside any block with positive count is covered regardless of other
zero-count blocks containing it. -/
theorem line_classification_spec :
    (∀ (p : Profile) (b : ProfileBlock) (line : Int), b ∈ p.blocks →
        b.startLine ≤ line → line ≤ b.endLine →
        isLineInstrumented (some p) line = true)
    ∧ (∀ (p : Profile) (b : ProfileBlock), b ∈ p.blocks →
        b.startLine ≤ b.endLine →
        isLineInstrumented (some p) b.startLine = true ∧
          isLineInstrumented (some p) b.endLine = true)
    ∧ (∀ (p : Profile) (line : Int),
        (∃ b ∈ p.blocks, b.startLine ≤ line ∧ line ≤ b.endLine ∧ 0 < b.count) →
        isLineCovered (some p) line = true) := by
  refine ⟨?_, ?_, ?_⟩
  · intro p b line hb h1 h2
    simp only [isLineInstrumented, List.any_eq_true, decide_eq_true_eq]
    exact ⟨b, hb, h1, h2⟩
  · intro p b hb hle
    constructor
    · simp only [isLineInstrumented, List.any_eq_true, decide_eq_true_eq]
      exact ⟨b, hb, le_refl _, hle⟩
    · simp only [isLineInstrumented, List.any_eq_true, decide_eq_true_eq]
      exact ⟨b, hb, hle, le_refl _⟩
  · intro p line h
    obtain ⟨b, hb, h1, h2, h3⟩ := h
    simp only [isLineCovered, List.any_eq_true, decide_eq_true_eq]
    exact ⟨b, hb, h1, h2, h3⟩

/-- C4 witness: line 5 lies in a zero-count block and in a positive-count
block of the same profile; the covering block wins. -/
theorem line_classification_spec_witness :
    isLineCovered
      (some { fileName := "f.go", mode := "set",
              blocks := [⟨5, 1, 5, 10, 1, 0⟩, ⟨5, 1, 6, 2, 1, 3⟩] }) 5 = true :=
  line_classification_spec.2.2 _ 5
    ⟨⟨5, 1, 6, 2, 1, 3⟩, by decide, by decide, by decide, by decide⟩

theorem charListLt_irrefl : ∀ as, charListLt as as = false
  | [] => rfl
  | a :: as => by simp [charListLt, charListLt_irrefl as]

theorem goStringLe_refl (s : String) : goStringLe s s :=
  charListLt_irrefl s.data

/-- The separation between consecutive emitted ranges: a gap of at least one
line, so ranges are disjoint, ordered and maximal. -/
def rangeGap (r s : LineRange) : Prop :=
  r.«end» + 1 < s.start

instance : DecidableRel rangeGap := fun a b => by
  unfold rangeGap
  infer_instance

theorem groupLinesLoop_append :
    ∀ (rest : List Int) (rs re : Int) (acc : List LineRange),
      groupLinesLoop rs re rest acc = acc ++ groupLinesLoop rs re rest []
  | [], rs, re, acc => by simp [groupLinesLoop]
  | l :: ls, rs, re, acc => by
    by_cases h : l = re + 1
    · simp only [groupLinesLoop, if_pos h]
      exact groupLinesLoop_append ls rs l acc
    · simp only [groupLinesLoop, if_neg h]
      rw [groupLinesLoop_append ls l l (acc ++ [(⟨rs, re⟩ : LineRange)]),
        groupLinesLoop_append ls l l ([] ++ [(⟨rs, re⟩ : LineRange)])]
      simp

theorem groupLinesLoop_spec :
    ∀ (rest : List Int) (rs re : Int),
      rs ≤ re → rest.Pairwise (· < ·) → (∀ x ∈ rest, re < x) →
      List.Chain' rangeGap (groupLinesLoop rs re rest [])
      ∧ (∀ r ∈ groupLinesLoop rs re rest [], r.start ≤ r.«end»)
      ∧ (∀ n : Int,
          (∃ r ∈ groupLinesLoop rs re rest [], r.start ≤ n ∧ n ≤ r.«end»)
            ↔ (rs ≤ n ∧ n ≤ re) ∨ n ∈ rest)
      ∧ (groupLinesLoop rs re rest []).head?.map LineRange.start = some rs
  | [], rs, re, hle, _, _ => by
    refine ⟨by simp [groupLinesLoop], ?_, ?_, by simp [groupLinesLoop]⟩
    · intro r hr
      have : r = ⟨rs, re⟩ := by simpa [groupLinesLoop] using hr
      simpa [this] using hle
    · intro n
      simp [groupLinesLoop]
  | l :: ls, rs, re, hle, hpair, hgt => by
    rw [List.pairwise_cons] at hpair
    have hrel : re < l := hgt l (by simp)
    by_cases h : l = re + 1
    · simp only [groupLinesLoop, if_pos h]
      obtain ⟨ch, wf, cov, hd⟩ :=
        groupLinesLoop_spec ls rs l (by omega) hpair.2 hpair.1
      refine ⟨ch, wf, ?_, hd⟩
      intro n
      rw [cov n]
      subst h
      constructor
      · rintro (⟨h1, h2⟩ | hmem)
        · rcases lt_or_ge n (re + 1) with hn | hn
          · exact Or.inl ⟨h1, by omega⟩
          · have hn' : n = re + 1 := by omega
            exact Or.inr (by simp [hn'])
        · exact Or.inr (by simp [hmem])
      · rintro (⟨h1, h2⟩ | hmem)
        · exact Or.inl ⟨h1, by omega⟩
        · rcases List.mem_cons.mp hmem with rfl | hmem'
          · exact Or.inl ⟨by omega, le_refl _⟩
          · exact Or.inr hmem'
    · simp only [groupLinesLoop, if_neg h]
      rw [groupLinesLoop_append ls l l ([] ++ [(⟨rs, re⟩ : LineRange)])]
      obtain ⟨ch, wf, cov, hd⟩ :=
        groupLinesLoop_spec ls l l (le_refl l) hpair.2 (fun x hx => hpair.1 x hx)
      simp only [List.nil_append, List.singleton_append]
      refine ⟨?_, ?_, ?_, by simp⟩
      · rw [List.chain'_cons']
        refine ⟨?_, ch⟩
        intro y hy
        cases hout : (groupLinesLoop l l ls []).head? with
        | none =>
            rw [hout] at hy
            simp at hy
        | some y' =>
            rw [hout] at hy hd
            have hy2 : y' = y := by simpa using hy
            have hst : y.start = l := by
              rw [← hy2]
              simpa using hd
            show re + 1 < y.start
            omega
      · intro r hr
        rcases List.mem_cons.mp hr with rfl | hr'
        · exact hle
        · exact wf r hr'
      · intro n
        constructor
        · rintro ⟨r, hr, h1, h2⟩
          rcases List.mem_cons.mp hr with rfl | hr'
          · exact Or.inl ⟨h1, h2⟩
          · rcases (cov n).mp ⟨r, hr', h1, h2⟩ with ⟨ha, hb⟩ | hm
            · have hn : n = l := by omega
              exact Or.inr (by simp [hn])
            · exact Or.inr (by simp [hm])
        · rintro (⟨h1, h2⟩ | hrest)
          · exact ⟨⟨rs, re⟩, by simp, h1, h2⟩
          · have hn : (l ≤ n ∧ n ≤ l) ∨ n ∈ ls := by
              rcases List.mem_cons.mp hrest with rfl | hm
              · exact Or.inl ⟨le_refl _, le_refl _⟩
              · exact Or.inr hm
            obtain ⟨r, hr, hrn⟩ := (cov n).mpr hn
            exact ⟨r, by simp [hr], hrn⟩

theorem groupIntoRanges_spec (lines : List Int) (h : lines.Pairwise (· < ·)) :
    List.Chain' rangeGap (GroupIntoRanges lines)
    ∧ (∀ r ∈ GroupIntoRanges lines, r.start ≤ r.«end»)
    ∧ ∀ n : Int,
        (∃ r ∈ GroupIntoRanges lines, r.start ≤ n ∧ n ≤ r.«end») ↔ n ∈ lines := by
  cases lines with
  | nil =>
      refine ⟨by simp [GroupIntoRanges], by simp [GroupIntoRanges], ?_⟩
      intro n
      simp [GroupIntoRanges]
  | cons l ls =>
      rw [List.pairwise_cons] at h
      obtain ⟨ch, wf, cov, _⟩ := groupLinesLoop_spec ls l l (le_refl l) h.2 h.1
      refine ⟨ch, wf, ?_⟩
      intro n
      rw [show GroupIntoRanges (l :: ls) = groupLinesLoop l l ls [] from rfl, cov n]
      constructor
      · rintro (⟨h1, h2⟩ | hm)
        · have hn : n = l := by omega
          simp [hn]
        · simp [hm]
      · intro hm
        rcases List.mem_cons.mp hm with rfl | hm'
        · exact Or.inl ⟨le_refl _, le_refl _⟩
        · exact Or.inr hm'

theorem sortInts_pairwise_lt (lines : List Int) (h : lines.Nodup) :
    (sortInts lines).Pairwise (· < ·) := by
  have hsort : (sortInts lines).Pairwise (fun a b : Int => a ≤ b) :=
    List.sorted_insertionSort _ lines
  have hnodup : (sortInts lines).Nodup :=
    (List.perm_insertionSort _ lines).nodup_iff.mpr h
  exact (hsort.and hnodup).imp (fun h => lt_of_le_of_ne h.1 h.2)

theorem sortAndGroupLines_spec (lines : List Int) (h : lines.Nodup) :
    List.Chain' rangeGap (SortAndGroupLines lines)
    ∧ (∀ r ∈ SortAndGroupLines lines, r.start ≤ r.«end»)
    ∧ ∀ n : Int,
        (∃ r ∈ SortAndGroupLines lines, r.start ≤ n ∧ n ≤ r.«end») ↔ n ∈ lines := by
  unfold SortAndGroupLines
  by_cases hlen : lines.length = 0
  · have hnil : lines = [] := List.length_eq_zero.mp hlen
    subst hnil
    simp
  · rw [if_neg hlen]
    obtain ⟨ch, wf, cov⟩ :=
      groupIntoRanges_spec (sortInts lines) (sortInts_pairwise_lt lines h)
    refine ⟨ch, wf, ?_⟩
    intro n
    rw [cov n]
    exact (List.perm_insertionSort _ lines).mem_iff

theorem annotationForRange_path (f : String) (r : LineRange) :
    (annotationForRange f r).path = f := by
  unfold annotationForRange
  split <;> rfl

theorem annotationForRange_startLine (f : String) (r : LineRange) :
    (annotationForRange f r).startLine = r.start := by
  unfold annotationForRange
  split <;> rfl

theorem annotationForRange_endLine (f : String) (r : LineRange) :
    (annotationForRange f r).endLine = r.«end» := by
  unfold annotationForRange
  split <;> rfl

theorem annotationForRange_level (f : String) (r : LineRange) :
    (annotationForRange f r).level = "notice" := by
  unfold annotationForRange
  split <;> rfl

theorem sorted_path_flatten :
    ∀ (files : List String), files.Sorted goStringLe →
      ∀ (g : String → List Annotation), (∀ f a, a ∈ g f → a.path = f) →
      (((files.map g).flatten).map Annotation.path).Sorted goStringLe
  | [], _, g, _ => by simp [List.Sorted]
  | f :: fs, hs, g, hg => by
    rw [List.sorted_cons] at hs
    simp only [List.map_cons, List.flatten_cons, List.map_append]
    rw [List.Sorted, List.pairwise_append]
    refine ⟨?_, sorted_path_flatten fs hs.2 g hg, ?_⟩
    · have hall : ∀ x ∈ (g f).map Annotation.path, x = f := by
        intro x hx
        obtain ⟨a, ha, rfl⟩ := List.mem_map.mp hx
        exact hg f a ha
      exact List.pairwise_of_forall_mem_list (fun x hx y hy => by
        rw [hall x hx, hall y hy]
        exact goStringLe_refl f)
    · intro x hx y hy
      have hxf : x = f := by
        obtain ⟨a, ha, rfl⟩ := List.mem_map.mp hx
        exact hg f a ha
      have hyf : ∃ f' ∈ fs, y = f' := by
        obtain ⟨a, ha, rfl⟩ := List.mem_map.mp hy
        obtain ⟨lblk, hlblk, hain⟩ := List.mem_flatten.mp ha
        obtain ⟨f', hf', rfl⟩ := List.mem_map.mp hlblk
        exact ⟨f', hf', hg f' a hain⟩
      obtain ⟨f', hf', hyeq⟩ := hyf
      rw [hxf, hyeq]
      exact hs.1 f' hf'

theorem filter_flatten_single :
    ∀ (files : List String) (g : String → List Annotation) (k : String),
      (∀ f a, a ∈ g f → a.path = f) → files.Nodup → k ∈ files →
      (((files.map g).flatten).filter (fun a => a.path == k)) = g k
  | [], _, k, _, _, hk => by simp at hk
  | f :: fs, g, k, hg, hnodup, hk => by
    rw [List.nodup_cons] at hnodup
    simp only [List.map_cons, List.flatten_cons, List.filter_append]
    rcases List.mem_cons.mp hk with rfl | hk'
    · have h1 : (g k).filter (fun a => a.path == k) = g k := by
        apply List.filter_eq_self.mpr
        intro a ha
        simp [hg k a ha]
      have h2 : ((fs.map g).flatten).filter (fun a => a.path == k) = [] := by
        apply List.filter_eq_nil_iff.mpr
        intro a ha
        simp only [List.mem_flatten] at ha
        obtain ⟨lblk, hlblk, ha⟩ := ha
        obtain ⟨f', hf', rfl⟩ := List.mem_map.mp hlblk
        have hpath : a.path = f' := hg f' a ha
        simp only [hpath, beq_eq_false_iff_ne, ne_eq, Bool.not_eq_true]
        intro hc
        exact hnodup.1 (hc ▸ hf')
      rw [h1, h2, List.append_nil]
    · have hne : ¬ f = k := fun hc => hnodup.1 (hc ▸ hk')
      have h1 : (g f).filter (fun a => a.path == k) = [] := by
        apply List.filter_eq_nil_iff.mpr
        intro a ha
        have hpath : a.path = f := hg f a ha
        simp [hpath, hne]
      rw [h1, List.nil_append]
      exact filter_flatten_single fs g k hg hnodup.2 hk'

theorem find?_first_of_nodup :
    ∀ (m : List (String × List Int)) (e : String × List Int),
      (m.map Prod.fst).Nodup → e ∈ m →
      m.find? (fun x => x.1 == e.1) = some e
  | [], e, _, he => by simp at he
  | e' :: rest, e, hnodup, he => by
    rw [List.map_cons, List.nodup_cons] at hnodup
    rcases List.mem_cons.mp he with rfl | he'
    · simp [List.find?_cons]
    · have hne : (e'.1 == e.1) = false := by
        simp only [beq_eq_false_iff_ne, ne_eq]
        intro hc
        exact hnodup.1 (hc ▸ List.mem_map_of_mem Prod.fst he')
      simpa [List.find?_cons, hne] using find?_first_of_nodup rest e hnodup.2 he'

/-- C6 counterexample: a line list with a duplicate entry yields two
identical single-line ranges, so the emitted annotation ranges are neither
pairwise disjoint nor strictly ordered. -/
theorem generateAnnotations_duplicate_lines_overlap :
    GenerateAnnotations ⟨[("a.go", [1, 1])], 2, 2⟩
      = [{ path := "a.go", startLine := 1, endLine := 1, level := "notice",
           title := "Uncovered line",
           message := "Line 1 is not covered by tests" },
         { path := "a.go", startLine := 1, endLine := 1, level := "notice",
           title := "Uncovered line",
           message := "Line 1 is not covered by tests" }]
    ∧ ¬ List.Chain' (fun a b => a.endLine + 1 < b.startLine)
        (GenerateAnnotations ⟨[("a.go", [1, 1])], 2, 2⟩) := by
  constructor
  · rfl
  · intro hch
    have h2 : GenerateAnnotations ⟨[("a.go", [1, 1])], 2, 2⟩
        = [{ path := "a.go", startLine := 1, endLine := 1, level := "notice",
             title := "Uncovered line",
             message := "Line 1 is not covered by tests" },
           { path := "a.go", startLine := 1, endLine := 1, level := "notice",
             title := "Uncovered line",
             message := "Line 1 is not covered by tests" }] := rfl
    rw [h2, List.chain'_cons] at hch
    exact absurd hch.1 (by decide)

/-- C6 (amended): for an analysis result whose per-file uncovered line lists
are duplicate-free (and whose map keys are distinct, as a Go map guarantees),
the annotations come out in file order sorted by Go string comparison, each
at level `notice` with the title chosen by range cardinality and with
well-formed bounds, and each file's emitted ranges are separated by gaps of
at least one line (hence pairwise disjoint, strictly ordered and maximal)
and cover exactly that file's uncovered-line set. -/
theorem generateAnnotations_spec (result : AnalysisResult)
    (hkeys : (result.uncoveredByFile.map Prod.fst).Nodup)
    (hlines : ∀ e ∈ result.uncoveredByFile, e.2.Nodup) :
    ((GenerateAnnotations result).map Annotation.path).Sorted goStringLe
    ∧ (∀ a ∈ GenerateAnnotations result,
        a.level = "notice" ∧ a.startLine ≤ a.endLine
        ∧ (a.startLine = a.endLine → a.title = "Uncovered line")
        ∧ (a.startLine ≠ a.endLine → a.title = "Uncovered lines"))
    ∧ (∀ e ∈ result.uncoveredByFile,
        List.Chain' (fun a b => a.endLine + 1 < b.startLine)
          ((GenerateAnnotations result).filter (fun a => a.path == e.1))
        ∧ ∀ n : Int,
          (∃ a ∈ (GenerateAnnotations result).filter (fun a => a.path == e.1),
            a.startLine ≤ n ∧ n ≤ a.endLine) ↔ n ∈ e.2) := by
  by_cases hempty : result.uncoveredByFile.length = 0
  · have hnil : result.uncoveredByFile = [] := List.length_eq_zero.mp hempty
    refine ⟨?_, ?_, ?_⟩
    · simp [GenerateAnnotations, hempty, List.Sorted]
    · simp [GenerateAnnotations, hempty]
    · intro e he
      rw [hnil] at he
      simp at he
  · have hgen : GenerateAnnotations result
        = (((GetSortedFiles result)).map (fun file =>
            (SortAndGroupLines (lookupLines result.uncoveredByFile file)).map
              (annotationForRange file))).flatten := by
      simp [GenerateAnnotations, hempty]
    have hgpath : ∀ f a,
        a ∈ (SortAndGroupLines (lookupLines result.uncoveredByFile f)).map
          (annotationForRange f) → a.path = f := by
      intro f a ha
      obtain ⟨r, _, rfl⟩ := List.mem_map.mp ha
      exact annotationForRange_path f r
    have hfiles_sorted : (GetSortedFiles result).Sorted goStringLe :=
      List.sorted_insertionSort _ _
    have hfiles_nodup : (GetSortedFiles result).Nodup :=
      (List.perm_insertionSort _ _).nodup_iff.mpr hkeys
    have hfiles_mem : ∀ e ∈ result.uncoveredByFile, e.1 ∈ GetSortedFiles result := by
      intro e he
      unfold GetSortedFiles
      rw [List.mem_insertionSort]
      exact List.mem_map_of_mem Prod.fst he
    have hnodupf : ∀ f, (lookupLines result.uncoveredByFile f).Nodup := by
      intro f
      unfold lookupLines
      cases hfind : result.uncoveredByFile.find? (fun x => x.1 == f) with
      | none => simp
      | some e0 => exact hlines e0 (List.mem_of_find?_eq_some hfind)
    refine ⟨?_, ?_, ?_⟩
    · rw [hgen]
      exact sorted_path_flatten _ hfiles_sorted _ hgpath
    · rw [hgen]
      intro a ha
      rw [List.mem_flatten] at ha
      obtain ⟨blk, hblk, ha⟩ := ha
      obtain ⟨f, hf, rfl⟩ := List.mem_map.mp hblk
      obtain ⟨r, hr, rfl⟩ := List.mem_map.mp ha
      have hwf := (sortAndGroupLines_spec (lookupLines result.uncoveredByFile f)
        (hnodupf f)).2.1 r hr
      refine ⟨annotationForRange_level f r, ?_, ?_, ?_⟩
      · rw [annotationForRange_startLine, annotationForRange_endLine]
        exact hwf
      · intro hEq
        rw [annotationForRange_startLine, annotationForRange_endLine] at hEq
        simp [annotationForRange, hEq]
      · intro hne
        rw [annotationForRange_startLine, annotationForRange_endLine] at hne
        simp [annotationForRange, hne]
    · intro e he
      have hfind : result.uncoveredByFile.find? (fun x => x.1 == e.1) = some e :=
        find?_first_of_nodup result.uncoveredByFile e hkeys he
      have hlookup : lookupLines result.uncoveredByFile e.1 = e.2 := by
        unfold lookupLines
        rw [hfind]
      have hfilter : (GenerateAnnotations result).filter (fun a => a.path == e.1)
          = (SortAndGroupLines (lookupLines result.uncoveredByFile e.1)).map
              (annotationForRange e.1) := by
        rw [hgen]
        exact filter_flatten_single _ _ e.1 hgpath hfiles_nodup (hfiles_mem e he)
      obtain ⟨ch, wf, cov⟩ :=
        sortAndGroupLines_spec (lookupLines result.uncoveredByFile e.1) (hnodupf e.1)
      constructor
      · rw [hfilter, List.chain'_map]
        exact ch.imp (fun r s hrs => by
          rw [annotationForRange_endLine, annotationForRange_startLine]
          exact hrs)
      · intro n
        rw [hfilter, ← hlookup, ← cov n]
        constructor
        · rintro ⟨a, ha, h1, h2⟩
          obtain ⟨r, hr, rfl⟩ := List.mem_map.mp ha
          rw [annotationForRange_startLine] at h1
          rw [annotationForRange_endLine] at h2
          exact ⟨r, hr, h1, h2⟩
        · rintro ⟨r, hr, h1, h2⟩
          exact ⟨annotationForRange e.1 r, List.mem_map_of_mem _ hr,
            by rw [annotationForRange_startLine]; exact h1,
            by rw [annotationForRange_endLine]; exact h2⟩

/-- C6 witness: the specification applied to a concrete one-file result with
unsorted, gapped uncovered lines. -/
theorem generateAnnotations_spec_witness :
    ((GenerateAnnotations ⟨[("a.go", [3, 1, 2, 7])], 4, 4⟩).map
        Annotation.path).Sorted goStringLe
    ∧ (∀ a ∈ GenerateAnnotations ⟨[("a.go", [3, 1, 2, 7])], 4, 4⟩,
        a.level = "notice" ∧ a.startLine ≤ a.endLine
        ∧ (a.startLine = a.endLine → a.title = "Uncovered line")
        ∧ (a.startLine ≠ a.endLine → a.title = "Uncovered lines"))
    ∧ (∀ e ∈ ([("a.go", [3, 1, 2, 7])] : List (String × List Int)),
        List.Chain' (fun a b => a.endLine + 1 < b.startLine)
          ((GenerateAnnotations ⟨[("a.go", [3, 1, 2, 7])], 4, 4⟩).filter
            (fun a => a.path == e.1))
        ∧ ∀ n : Int,
          (∃ a ∈ (GenerateAnnotations ⟨[("a.go", [3, 1, 2, 7])], 4, 4⟩).filter
              (fun a => a.path == e.1),
            a.startLine ≤ n ∧ n ≤ a.endLine) ↔ n ∈ e.2) :=
  generateAnnotations_spec ⟨[("a.go", [3, 1, 2, 7])], 4, 4⟩ (by decide) (by decide)

/-! Embedding of the webhook HMAC validator (`ValidateHMAC` in the webhook
package). -/

/-- The three sentinel errors of the validator. -/
inductive HMACError where
  | missingSignature
  | malformedSignature
  | invalidSignature
  deriving DecidableEq, Repr

/-- `fromHexChar` of encoding/hex: accepts `0`-`9`, `a`-`f` and `A`-`F`. -/
def hexDigitVal (c : Char) : Option Nat :=
  if '0' ≤ c ∧ c ≤ '9' then some (c.toNat - '0'.toNat)
  else if 'a' ≤ c ∧ c ≤ 'f' then some (c.toNat - 'a'.toNat + 10)
  else if 'A' ≤ c ∧ c ≤ 'F' then some (c.toNat - 'A'.toNat + 10)
  else none

/-- `hex.DecodeString`: bytes from pairs of hex digits; odd length or an
invalid digit is an error. -/
def hexDecode : List Char → Option (List Nat)
  | [] => some []
  | [_] => none
  | c1 :: c2 :: rest =>
      match hexDigitVal c1, hexDigitVal c2, hexDecode rest with
      | some hi, some lo, some bs => some ((16 * hi + lo) :: bs)
      | _, _, _ => none

/-- The `sha256=` header tag. -/
def headerTag : List Char := ['s', 'h', 'a', '2', '5', '6', '=']

/-- `ValidateHMAC` from the webhook package, parametrised by the
`crypto/hmac` SHA-256 function (key first, then message) from the Go
standard library; strings are modelled as character lists and `hmac.Equal`
as equality of byte sequences (its functional behaviour — the constant-time
execution itself is a timing property outside this embedding). Returns
`none` on success. -/
def ValidateHMAC (mac : List Char → List Nat → List Nat) (payload : List Nat)
    (signature : List Char) (secret : List Char) : Option HMACError :=
  if signature = [] then some .missingSignature
  else if ¬ headerTag.isPrefixOf signature then some .malformedSignature
  else
    let providedSig := signature.drop headerTag.length
    if providedSig.length = 0 then some .malformedSignature
    else
      match hexDecode providedSig with
      | none => some .malformedSignature
      | some providedBytes =>
          if mac secret payload = providedBytes then none
          else some .invalidSignature

/-- The claim's "`sha256=` followed by a non-empty hex string". -/
def WellFormedSigHeader (signature : List Char) : Prop :=
  headerTag.isPrefixOf signature = true
  ∧ signature.drop headerTag.length ≠ []
  ∧ (hexDecode (signature.drop headerTag.length)).isSome = true

/-- C7: the validator's result is a total case split: `MissingSignature`
exactly on an absent (empty) header, `MalformedSignature` exactly on a
non-empty header that is not `sha256=` plus a non-empty hex string,
`InvalidSignature` exactly when the well-formed header's decoded bytes
differ from the HMAC of the payload under the secret, and success exactly
when they agree. -/
theorem validateHMAC_error_taxonomy (mac : List Char → List Nat → List Nat)
    (payload : List Nat) (signature secret : List Char) :
    (ValidateHMAC mac payload signature secret = some HMACError.missingSignature
      ↔ signature = [])
    ∧ (ValidateHMAC mac payload signature secret = some HMACError.malformedSignature
      ↔ signature ≠ [] ∧ ¬ WellFormedSigHeader signature)
    ∧ (ValidateHMAC mac payload signature secret = some HMACError.invalidSignature
      ↔ WellFormedSigHeader signature
        ∧ hexDecode (signature.drop headerTag.length) ≠ some (mac secret payload))
    ∧ (ValidateHMAC mac payload signature secret = none
      ↔ WellFormedSigHeader signature
        ∧ hexDecode (signature.drop headerTag.length) = some (mac secret payload)) := by
  by_cases h1 : signature = []
  · subst h1
    refine ⟨by simp [ValidateHMAC], ?_, ?_, ?_⟩ <;>
      simp [ValidateHMAC, WellFormedSigHeader, headerTag, List.isPrefixOf]
  · by_cases h2 : headerTag.isPrefixOf signature = true
    · by_cases h3 : (signature.drop headerTag.length).length = 0
      · have hdrop : signature.drop headerTag.length = [] := List.length_eq_zero.mp h3
        refine ⟨?_, ?_, ?_, ?_⟩ <;>
          simp [ValidateHMAC, WellFormedSigHeader, h1, h2, h3, hdrop]
      · cases h4 : hexDecode (signature.drop headerTag.length) with
        | none =>
            refine ⟨?_, ?_, ?_, ?_⟩ <;>
              simp [ValidateHMAC, WellFormedSigHeader, h1, h2, h3, h4]
        | some bs =>
            have hne : signature.drop headerTag.length ≠ [] :=
              fun hc => h3 (by simp [hc])
            have h3' : ¬ signature.length - headerTag.length = 0 := by
              simpa using h3
            by_cases h5 : mac secret payload = bs
            · refine ⟨?_, ?_, ?_, ?_⟩ <;>
                simp [ValidateHMAC, WellFormedSigHeader, h1, h2, h3, h3', h4, h5, hne]
            · have h5' : ¬ some bs = some (mac secret payload) := by
                simp
                exact fun hc => h5 hc.symm
              refine ⟨?_, ?_, ?_, ?_⟩ <;>
                simp [ValidateHMAC, WellFormedSigHeader, h1, h2, h3, h3', h4, h5, hne,
                  h5']
    · refine ⟨?_, ?_, ?_, ?_⟩ <;>
        simp [ValidateHMAC, WellFormedSigHeader, h1, h2]

/-- Uppercase hex digit for a nibble. -/
def hexDigitUpper (n : Nat) : Char :=
  if n < 10 then Char.ofNat ('0'.toNat + n) else Char.ofNat ('A'.toNat + (n - 10))

/-- Lowercase hex digit for a nibble. -/
def hexDigitLower (n : Nat) : Char :=
  if n < 10 then Char.ofNat ('0'.toNat + n) else Char.ofNat ('a'.toNat + (n - 10))

/-- Uppercase hex encoding of a byte sequence. -/
def hexEncodeUpper : List Nat → List Char
  | [] => []
  | b :: bs => hexDigitUpper (b / 16) :: hexDigitUpper (b % 16) :: hexEncodeUpper bs

theorem hexDigitVal_upper (n : Nat) (h : n < 16) :
    hexDigitVal (hexDigitUpper n) = some n := by
  interval_cases n <;> decide

theorem hexDigitVal_lower (n : Nat) (h : n < 16) :
    hexDigitVal (hexDigitLower n) = some n := by
  interval_cases n <;> decide

theorem hexDecode_encodeUpper :
    ∀ bs : List Nat, (∀ b ∈ bs, b < 256) →
      hexDecode (hexEncodeUpper bs) = some bs
  | [], _ => rfl
  | b :: bs, h => by
    have hb : b < 256 := h b (by simp)
    have h1 : hexDigitVal (hexDigitUpper (b / 16)) = some (b / 16) :=
      hexDigitVal_upper _ (by omega)
    have h2 : hexDigitVal (hexDigitUpper (b % 16)) = some (b % 16) :=
      hexDigitVal_upper _ (by omega)
    have h3 := hexDecode_encodeUpper bs (fun x hx => h x (by simp [hx]))
    have hbval : 16 * (b / 16) + b % 16 = b := by omega
    simp only [hexEncodeUpper, hexDecode, h1, h2, h3, hbval]

/-- C9: hex decoding is case-insensitive — uppercase digits carry the same
value as lowercase ones — so a signature header whose hex portion decodes to
the correct HMAC is accepted regardless of case, in particular the fully
uppercase encoding of the correct HMAC. -/
theorem validateHMAC_accepts_uppercase_hex :
    (∀ n, n < 16 →
      hexDigitVal (hexDigitUpper n) = some n
      ∧ hexDigitVal (hexDigitLower n) = some n)
    ∧ (∀ (mac : List Char → List Nat → List Nat) (payload : List Nat)
        (secret : List Char) (s : List Char),
        s ≠ [] → hexDecode s = some (mac secret payload) →
        ValidateHMAC mac payload (headerTag ++ s) secret = none)
    ∧ (∀ (mac : List Char → List Nat → List Nat) (payload : List Nat)
        (secret : List Char),
        mac secret payload ≠ [] → (∀ b ∈ mac secret payload, b < 256) →
        ValidateHMAC mac payload
          (headerTag ++ hexEncodeUpper (mac secret payload)) secret = none) := by
  have accept : ∀ (mac : List Char → List Nat → List Nat) (payload : List Nat)
      (secret : List Char) (s : List Char),
      s ≠ [] → hexDecode s = some (mac secret payload) →
      ValidateHMAC mac payload (headerTag ++ s) secret = none := by
    intro mac payload secret s hne hdec
    have hsig : ¬ headerTag ++ s = [] := by simp [headerTag]
    have hpre : headerTag.isPrefixOf (headerTag ++ s) = true := by
      simp [List.isPrefixOf, headerTag]
    have hdrop : (headerTag ++ s).drop headerTag.length = s := List.drop_left _ _
    have hlen : ¬ ((headerTag ++ s).drop headerTag.length).length = 0 := by
      rw [hdrop]
      simpa [List.length_eq_zero] using hne
    simp only [ValidateHMAC, if_neg hsig, hpre, not_true, if_neg, hdrop, hlen, hdec,
      if_true]
    simp [hne]
  refine ⟨fun n h => ⟨hexDigitVal_upper n h, hexDigitVal_lower n h⟩, accept, ?_⟩
  intro mac payload secret hmac hbytes
  have hne : hexEncodeUpper (mac secret payload) ≠ [] := by
    cases hmv : mac secret payload with
    | nil => exact absurd hmv hmac
    | cons b bs => simp [hexEncodeUpper]
  exact accept mac payload secret _ hne (hexDecode_encodeUpper _ hbytes)

/-- C9 witness: `sha256=AB01` (uppercase hex) is accepted when the HMAC is
`[0xAB, 0x01]`, and the nibble digits agree across cases. -/
theorem validateHMAC_accepts_uppercase_hex_witness :
    (hexDigitVal (hexDigitUpper 11) = some 11
      ∧ hexDigitVal (hexDigitLower 11) = some 11)
    ∧ ValidateHMAC (fun _ _ => [171, 1]) [1, 2]
        (headerTag ++ ['A', 'B', '0', '1']) ['k'] = none
    ∧ ValidateHMAC (fun _ _ => [171, 1]) [1, 2]
        (headerTag ++ hexEncodeUpper [171, 1]) ['k'] = none :=
  ⟨validateHMAC_accepts_uppercase_hex.1 11 (by decide),
   validateHMAC_accepts_uppercase_hex.2.1 (fun _ _ => [171, 1]) [1, 2] ['k']
     ['A', 'B', '0', '1'] (by decide) (by decide),
   validateHMAC_accepts_uppercase_hex.2.2 (fun _ _ => [171, 1]) [1, 2] ['k']
     (by decide) (by decide)⟩

/-! Embedding of internal/storage (gcs.go). -/

/-- `CoverageKey` from internal/storage/interface.go. -/
structure CoverageKey where
  org : String
  repo : String
  branch : String
  deriving DecidableEq, Repr

/-- Outcome of the GCS read path for one object: `NewReader` may fail with
`ErrObjectNotExist` or some other error, `io.ReadAll` may fail, or the data
is returned. -/
inductive ReaderOutcome where
  | notExist
  | openErr (msg : String)
  | readErr (msg : String)
  | success (data : List Nat)
  deriving DecidableEq, Repr

/-- `validateCoverageKey` from gcs.go. -/
def validateCoverageKey (key : CoverageKey) : Option String :=
  if key.org = "" then some "org is required"
  else if key.repo = "" then some "repo is required"
  else if key.branch = "" then some "branch is required"
  else none

/-- `formatObjectPath` from gcs.go. -/
def formatObjectPath (key : CoverageKey) : String :=
  key.org ++ "/" ++ key.repo ++ "/" ++ key.branch ++ "/coverage.out"

/-- `GCSStorage.GetCoverage` from gcs.go, parametrised by the bucket state as
a map from object path to read outcome: validates the key, returns `ok none`
when the object does not exist, propagates any other open or read failure as
an error, and returns the data on success. -/
def GetCoverage (backend : String → ReaderOutcome) (key : CoverageKey) :
    Except String (Option (List Nat)) :=
  match validateCoverageKey key with
  | some e => Except.error e
  | none =>
      match backend (formatObjectPath key) with
      | .notExist => Except.ok none
      | .openErr msg =>
          Except.error
            ("failed to open GCS object " ++ formatObjectPath key ++ ": " ++ msg)
      | .readErr msg =>
          Except.error
            ("failed to read GCS object " ++ formatObjectPath key ++ ": " ++ msg)
      | .success data => Except.ok (some data)

/-- C8 counterexample: for the key with an empty `org`, `GetCoverage` fails
with a validation error even though the blob is absent, instead of returning
none with no error. -/
theorem getCoverage_empty_org_fails :
    GetCoverage (fun _ => ReaderOutcome.notExist) ⟨"", "repo", "main"⟩
      = Except.error "org is required"
    ∧ GetCoverage (fun _ => ReaderOutcome.notExist) ⟨"", "repo", "main"⟩
      ≠ Except.ok none :=
  ⟨rfl, fun h => Except.noConfusion h⟩

/-- C8 (amended): for every key whose `org`, `repo` and `branch` are all
non-empty, an absent blob yields `ok none` rather than an error, while every
other retrieval failure (open error or read error) propagates as an error
and a successful read returns the data. -/
theorem getCoverage_spec (backend : String → ReaderOutcome) (key : CoverageKey)
    (h1 : key.org ≠ "") (h2 : key.repo ≠ "") (h3 : key.branch ≠ "") :
    (backend (formatObjectPath key) = ReaderOutcome.notExist →
      GetCoverage backend key = Except.ok none)
    ∧ (∀ msg, backend (formatObjectPath key) = ReaderOutcome.openErr msg →
        GetCoverage backend key = Except.error
          ("failed to open GCS object " ++ formatObjectPath key ++ ": " ++ msg))
    ∧ (∀ msg, backend (formatObjectPath key) = ReaderOutcome.readErr msg →
        GetCoverage backend key = Except.error
          ("failed to read GCS object " ++ formatObjectPath key ++ ": " ++ msg))
    ∧ (∀ data, backend (formatObjectPath key) = ReaderOutcome.success data →
        GetCoverage backend key = Except.ok (some data)) := by
  have hval : validateCoverageKey key = none := by
    simp [validateCoverageKey, h1, h2, h3]
  refine ⟨?_, ?_, ?_, ?_⟩
  · intro h
    simp [GetCoverage, hval, h]
  · intro msg h
    simp [GetCoverage, hval, h]
  · intro msg h
    simp [GetCoverage, hval, h]
  · intro data h
    simp [GetCoverage, hval, h]

/-- C8 witness: a valid key over an empty bucket returns `ok none`. -/
theorem getCoverage_spec_witness :
    GetCoverage (fun _ => ReaderOutcome.notExist) ⟨"grafana", "repo", "main"⟩
      = Except.ok none :=
  (getCoverage_spec (fun _ => ReaderOutcome.notExist) ⟨"grafana", "repo", "main"⟩
    (by decide) (by decide) (by decide)).1 rfl

end Canopy
